import Mathlib

/-!
Shallow embedding of the Kruskal-style minimum-spanning-tree program in
src/Traversal.cpp (classes Edge, PathFinder and SpanningTree together with
the driver in main), followed by theorems settling the claims about it.

Modelling conventions:
* C++ `int` values (node ids, weights, node/edge counters) are `Int`;
  the vector subscript stored in the weight index is a `Nat`.
* `std::set` is modelled as a duplicate-free `List` with insert-if-absent;
  only membership in the set is ever consumed by the program logic.
* `PathFinder::traverse` is a non-void function that can fall off the end of
  its loop without returning (undefined behaviour in C++); that control path
  is made explicit as the result `TravResult.undef`.
-/

namespace MST

/-- Edge of the graph: source node, destination node and weight, each
defaulting to the sentinel value -1 (class `Edge`, whose constructor
defaults every field to -1 and whose `operator==` compares all three
fields). -/
structure Edge where
  source : Int := -1
  destination : Int := -1
  weight : Int := -1
deriving DecidableEq, Repr

/-- The sentinel edge `Edge(-1,-1,-1)` that `traverse` returns on a cycle
rejection and that `main` filters out before `add_edge`. -/
def sentinelEdge : Edge := ⟨-1, -1, -1⟩

/-- Insert-if-absent into a duplicate-free list: the model of
`std::set::insert`.  Appending at the back keeps the element set right;
no code path of the program depends on the iteration order of the set
(see the comment on `augment_components`). -/
def sinsert {α : Type} [DecidableEq α] (l : List α) (x : α) : List α :=
  if x ∈ l then l else l ++ [x]

/-- State of class `PathFinder`: the weight index `all_weights`
(vector of (weight, edge index) pairs), the edge list `all_edges`,
the connectivity pairs `traversed_edges` (a `std::set<pair<int,int>>`),
the insertion counter `index`, the node count `num_of_nodes`, the
accepted-edge counter `num_of_traversed_edges` and the touched-node set
`traversed_nodes`.  The constructor zero-initialises `index` and
`num_of_traversed_edges`; `num_of_nodes` is set by `parse_input`. -/
structure PF where
  all_weights : List (Int × Nat) := []
  all_edges : List Edge := []
  traversed_edges : List (Int × Int) := []
  index : Nat := 0
  num_of_nodes : Int := 0
  num_of_traversed_edges : Int := 0
  traversed_nodes : List Int := []
deriving DecidableEq, Repr

/-- The edge the weight-index entry `wi` refers to:
`all_edges[wi.second]`.  The C++ subscript is undefined behaviour out of
bounds; the default is immaterial because every lookup the program performs
is in bounds (theorem for C10). -/
def edgeAt (s : PF) (wi : Int × Nat) : Edge :=
  s.all_edges.getD wi.2 sentinelEdge

/-- `PathFinder::is_edge_traversed`: exact, orientation-sensitive lookup of
the pair (source, destination) in `traversed_edges`. -/
def is_edge_traversed (s : PF) (source destination : Int) : Bool :=
  decide ((source, destination) ∈ s.traversed_edges)

/-- `PathFinder::are_nodes_traversed` (dead code in the main flow; its call
site in `traverse` is commented out in the source): one loop setting two
flags, equivalent to two separate scans. -/
def are_nodes_traversed (s : PF) (source destination : Int) : Bool :=
  (s.traversed_edges.any fun p => p.1 = source)
    && (s.traversed_edges.any fun p => p.2 = destination)

/-- `PathFinder::check_cycle`: two scans of `idx` over `[0, num_of_nodes)`;
the first reports a cycle when both (source, idx) and (destination, idx) are
recorded pairs, the second when both (idx, source) and (idx, destination)
are.  The C++ loop keeps running after setting its flag, so the result is
exactly the disjunction of the two `any` scans.  A non-positive
`num_of_nodes` makes both loops empty (`Int.toNat` of a negative is 0). -/
def check_cycle (s : PF) (source destination : Int) : Bool :=
  ((List.range s.num_of_nodes.toNat).any fun k =>
      is_edge_traversed s source (k : Int)
        && is_edge_traversed s destination (k : Int))
    || ((List.range s.num_of_nodes.toNat).any fun k =>
      is_edge_traversed s (k : Int) source
        && is_edge_traversed s (k : Int) destination)

/-- `PathFinder::insert_new_edge(s, d, w)`: rejected (early return, nothing
changed) iff the reverse-oriented edge `Edge(d, s, w)` is already in
`all_edges`; otherwise appends `Edge(s, d, w)` to the edge list, appends
`(w, index)` to the weight index and increments the insertion counter. -/
def insert_new_edge (s : PF) (src dst w : Int) : PF :=
  if Edge.mk dst src w ∈ s.all_edges then s
  else
    { s with
      all_edges := s.all_edges ++ [Edge.mk src dst w]
      all_weights := s.all_weights ++ [(w, s.index)]
      index := s.index + 1 }

/-- The lexicographic "less or equal" on (weight, index) pairs: the total
order by which `std::sort` orders `vector<pair<int,int>>` (strict `<` on
pairs is lexicographic; this is the reflexive closure). -/
def lexLe (a b : Int × Nat) : Prop :=
  a.1 < b.1 ∨ (a.1 = b.1 ∧ a.2 ≤ b.2)

instance lexLe.instDecidable : ∀ a b, Decidable (lexLe a b) := fun a b =>
  decidable_of_iff (a.1 < b.1 ∨ (a.1 = b.1 ∧ a.2 ≤ b.2)) Iff.rfl

instance lexLe.instIsTotal : IsTotal (Int × Nat) lexLe :=
  ⟨by intro a b; unfold lexLe; omega⟩

instance lexLe.instIsTrans : IsTrans (Int × Nat) lexLe :=
  ⟨by intro a b c; unfold lexLe; omega⟩

instance lexLe.instIsAntisymm : IsAntisymm (Int × Nat) lexLe := by
  constructor
  intro a b h1 h2
  obtain ⟨a1, a2⟩ := a
  obtain ⟨b1, b2⟩ := b
  simp only [lexLe] at h1 h2
  simp only [Prod.mk.injEq]
  omega

/-- `PathFinder::sort_edges`: `std::sort` over the (weight, index) vector.
`std::sort` is an unstable quicksort, but the sort keys are whole pairs and
the index components are pairwise distinct, so the sorted permutation is
unique (proved as part of C6) and any correct sorting algorithm — here
insertion sort — produces exactly the same list. -/
def sort_edges (s : PF) : PF :=
  { s with all_weights := List.insertionSort lexLe s.all_weights }

/-- Body of the loop of `PathFinder::augment_components` for one element
`p` of `traversed_edges`: the two independent `if`s insert (p.first,
destination) when p.second == source and p.first != destination, and
(source, p.second) when p.first == destination and p.second != source,
each also re-inserting the (already present) accepted end nodes. -/
def augmentStep (source destination : Int) (s : PF) (p : Int × Int) : PF :=
  let s1 :=
    if p.2 = source ∧ p.1 ≠ destination then
      { s with
        traversed_nodes := sinsert (sinsert s.traversed_nodes source) destination
        traversed_edges := sinsert s.traversed_edges (p.1, destination) }
    else s
  if p.1 = destination ∧ p.2 ≠ source then
    { s1 with
      traversed_nodes := sinsert (sinsert s1.traversed_nodes source) destination
      traversed_edges := sinsert s1.traversed_edges (source, p.2) }
  else s1

/-- `PathFinder::augment_components`: one pass over the pairs recorded in
`traversed_edges` at the moment of the call.  The C++ range-for iterates the
`std::set` in sorted order while inserting into it; inserts do not
invalidate set iterators, so pairs inserted ahead of the cursor are also
visited — but a visited inserted pair of the form (x, destination) with
x != destination, or (source, y) with y != source, satisfies neither insert
condition in a way that produces a pair not already produced (it can only
re-insert itself, see `augment_components_twice`), so folding over the
snapshot of the set yields exactly the same final set. -/
def augment_components (s : PF) (source destination : Int) : PF :=
  s.traversed_edges.foldl (augmentStep source destination) s

/-- Result of one call to `PathFinder::traverse`:
* `complete` models the `nullptr` return (termination condition met);
* `rejected` models returning the freshly allocated sentinel
  `Edge(-1,-1,-1)` after a cycle rejection;
* `accepted e` models returning a pointer to the stored edge `e`;
* `undef` models control reaching the end of the non-void function without
  a return statement — undefined behaviour in C++. -/
inductive TravResult where
  | complete
  | rejected
  | accepted (e : Edge)
  | undef
deriving DecidableEq, Repr

/-- The accept path of `traverse` (lines marking nodes and the edge as
traversed, incrementing the counter, then calling `augment_components`). -/
def acceptEdge (s : PF) (source destination : Int) : PF :=
  augment_components
    { s with
      traversed_nodes := sinsert (sinsert s.traversed_nodes source) destination
      traversed_edges := sinsert s.traversed_edges (source, destination)
      num_of_traversed_edges := s.num_of_traversed_edges + 1 }
    source destination

/-- The loop of `PathFinder::traverse` over the weight index.  Every
mutation in the C++ loop body is immediately followed by a `return`, so
iterating over the entry list of the state at call time is exact.  In the
cycle-rejection branch, `erase(remove(begin, end, item))` removes exactly
the one occurrence of `item` from `all_weights`: the entries are pairwise
distinct in every run (theorem for C10), so the single matching element is
dropped and the order of the rest is preserved, which is `List.erase`. -/
def traverseGo (s : PF) : List (Int × Nat) → TravResult × PF
  | [] => (TravResult.undef, s)
  | item :: rest =>
    let e := edgeAt s item
    if s.num_of_traversed_edges = s.num_of_nodes - 1 then
      (TravResult.complete, s)
    else if is_edge_traversed s e.source e.destination then
      traverseGo s rest
    else if check_cycle s e.source e.destination then
      (TravResult.rejected, { s with all_weights := s.all_weights.erase item })
    else
      (TravResult.accepted e, acceptEdge s e.source e.destination)

/-- `PathFinder::traverse`: run the loop over the current weight index. -/
def traverse (s : PF) : TravResult × PF :=
  traverseGo s s.all_weights

/-- State of class `SpanningTree`: running cost (zero-initialised) and the
collected edges. -/
structure SpanningTree where
  mst_cost : Int := 0
  traversed_edges : List Edge := []
deriving DecidableEq, Repr

/-- `SpanningTree::add_edge`: append the edge and add its weight to the
running total. -/
def add_edge (t : SpanningTree) (e : Edge) : SpanningTree :=
  { t with
    traversed_edges := t.traversed_edges ++ [e]
    mst_cost := t.mst_cost + e.weight }

/-- `PathFinder::parse_input` reduced to its effect on the state: set
`num_of_nodes` to the first token and call `insert_new_edge` once per
parsed (source, destination, weight) triple, in input order. -/
def loadEdges (n : Int) (ts : List (Int × Int × Int)) : PF :=
  ts.foldl (fun s t => insert_new_edge s t.1 t.2.1 t.2.2) { num_of_nodes := n }

/-- The driver loop of `main` after `parse_input` and `sort_edges`: call
`traverse` repeatedly; on the sentinel value do not touch the accumulator;
on an accepted edge call `SpanningTree::add_edge`; stop on `nullptr`
(third component `true`).  Fuel bounds the iteration; running out of fuel
or hitting the undefined fall-off path stops with `false`. -/
def runMST : Nat → PF → SpanningTree → SpanningTree × PF × Bool
  | 0, s, t => (t, s, false)
  | Nat.succ fuel, s, t =>
    match traverse s with
    | (TravResult.complete, s') => (t, s', true)
    | (TravResult.rejected, s') => runMST fuel s' t
    | (TravResult.accepted e, s') =>
      if e = sentinelEdge then runMST fuel s' t else runMST fuel s' (add_edge t e)
    | (TravResult.undef, s') => (t, s', false)

/-- States of the program run: a loaded `PathFinder` (any node count, any
insertion sequence), optionally sorted, after any number of `traverse`
calls. -/
inductive Reach : PF → Prop where
  | loaded : ∀ (n : Int) (ts : List (Int × Int × Int)), Reach (loadEdges n ts)
  | sorted : ∀ s, Reach s → Reach (sort_edges s)
  | stepped : ∀ s r s', Reach s → traverse s = (r, s') → Reach s'

/-- Reflexive-transitive closure of single `traverse` calls, used to state
that an erased weight-index entry is never reconsidered later. -/
inductive Steps : PF → PF → Prop where
  | refl : ∀ s, Steps s s
  | tail : ∀ s s' s'' r, Steps s s' → traverse s' = (r, s'') → Steps s s''

/-! ### Basic lemmas about the set model and `augment_components` -/

theorem mem_sinsert {α : Type} [DecidableEq α] {l : List α} {x y : α} :
    y ∈ sinsert l x ↔ y = x ∨ y ∈ l := by
  unfold sinsert
  split_ifs with h
  · constructor
    · exact Or.inr
    · rintro (rfl | hy)
      · exact h
      · exact hy
  · rw [List.mem_append, List.mem_singleton, or_comm]

theorem augmentStep_all_weights (a b : Int) (s : PF) (p : Int × Int) :
    (augmentStep a b s p).all_weights = s.all_weights := by
  simp only [augmentStep]
  split_ifs <;> rfl

theorem augmentStep_all_edges (a b : Int) (s : PF) (p : Int × Int) :
    (augmentStep a b s p).all_edges = s.all_edges := by
  simp only [augmentStep]
  split_ifs <;> rfl

theorem augmentStep_index (a b : Int) (s : PF) (p : Int × Int) :
    (augmentStep a b s p).index = s.index := by
  simp only [augmentStep]
  split_ifs <;> rfl

theorem augmentStep_num_of_nodes (a b : Int) (s : PF) (p : Int × Int) :
    (augmentStep a b s p).num_of_nodes = s.num_of_nodes := by
  simp only [augmentStep]
  split_ifs <;> rfl

theorem augmentStep_count (a b : Int) (s : PF) (p : Int × Int) :
    (augmentStep a b s p).num_of_traversed_edges = s.num_of_traversed_edges := by
  simp only [augmentStep]
  split_ifs <;> rfl

theorem mem_augmentStep (a b : Int) (s : PF) (p q : Int × Int) :
    q ∈ (augmentStep a b s p).traversed_edges ↔
      q ∈ s.traversed_edges
      ∨ (p.2 = a ∧ p.1 ≠ b ∧ q = (p.1, b))
      ∨ (p.1 = b ∧ p.2 ≠ a ∧ q = (a, p.2)) := by
  simp only [augmentStep]
  split_ifs with h1 h2 h2 <;> (try simp only [mem_sinsert]) <;> tauto

theorem foldl_augmentStep_fields (a b : Int) (ps : List (Int × Int)) (s : PF) :
    (ps.foldl (augmentStep a b) s).all_weights = s.all_weights
    ∧ (ps.foldl (augmentStep a b) s).all_edges = s.all_edges
    ∧ (ps.foldl (augmentStep a b) s).index = s.index
    ∧ (ps.foldl (augmentStep a b) s).num_of_nodes = s.num_of_nodes
    ∧ (ps.foldl (augmentStep a b) s).num_of_traversed_edges
        = s.num_of_traversed_edges := by
  induction ps generalizing s with
  | nil => exact ⟨rfl, rfl, rfl, rfl, rfl⟩
  | cons p ps ih =>
    obtain ⟨h1, h2, h3, h4, h5⟩ := ih (augmentStep a b s p)
    rw [List.foldl_cons]
    exact ⟨h1.trans (augmentStep_all_weights a b s p),
      h2.trans (augmentStep_all_edges a b s p),
      h3.trans (augmentStep_index a b s p),
      h4.trans (augmentStep_num_of_nodes a b s p),
      h5.trans (augmentStep_count a b s p)⟩

theorem mem_foldl_augmentStep (a b : Int) (ps : List (Int × Int)) (s : PF)
    (q : Int × Int) :
    q ∈ (ps.foldl (augmentStep a b) s).traversed_edges ↔
      q ∈ s.traversed_edges
      ∨ (∃ p ∈ ps, p.2 = a ∧ p.1 ≠ b ∧ q = (p.1, b))
      ∨ (∃ p ∈ ps, p.1 = b ∧ p.2 ≠ a ∧ q = (a, p.2)) := by
  induction ps generalizing s with
  | nil => simp
  | cons p ps ih =>
    rw [List.foldl_cons, ih, mem_augmentStep]
    simp only [List.exists_mem_cons_iff]
    constructor
    · rintro ((h | h | h) | h | h)
      · exact Or.inl h
      · exact Or.inr (Or.inl (Or.inl h))
      · exact Or.inr (Or.inr (Or.inl h))
      · exact Or.inr (Or.inl (Or.inr h))
      · exact Or.inr (Or.inr (Or.inr h))
    · rintro (h | (h | h) | (h | h))
      · exact Or.inl (Or.inl h)
      · exact Or.inl (Or.inr (Or.inl h))
      · exact Or.inr (Or.inl h)
      · exact Or.inl (Or.inr (Or.inr h))
      · exact Or.inr (Or.inr h)

theorem augment_components_all_weights (s : PF) (a b : Int) :
    (augment_components s a b).all_weights = s.all_weights :=
  (foldl_augmentStep_fields a b s.traversed_edges s).1

theorem augment_components_all_edges (s : PF) (a b : Int) :
    (augment_components s a b).all_edges = s.all_edges :=
  (foldl_augmentStep_fields a b s.traversed_edges s).2.1

theorem augment_components_num_of_nodes (s : PF) (a b : Int) :
    (augment_components s a b).num_of_nodes = s.num_of_nodes :=
  (foldl_augmentStep_fields a b s.traversed_edges s).2.2.2.1

theorem augment_components_count (s : PF) (a b : Int) :
    (augment_components s a b).num_of_traversed_edges
      = s.num_of_traversed_edges :=
  (foldl_augmentStep_fields a b s.traversed_edges s).2.2.2.2

/-- C4 — `check_cycle` reports a cycle iff some node id `k` in
`[0, num_of_nodes)` is a common neighbour of source and destination in the
recorded-pair set, in either of the two orientations checked by the code,
where pair membership is the exact orientation-sensitive lookup of
`is_edge_traversed`. -/
theorem check_cycle_iff_common_neighbor (s : PF) (a b : Int) :
    check_cycle s a b = true ↔
      ∃ k : Int, 0 ≤ k ∧ k < s.num_of_nodes ∧
        (((a, k) ∈ s.traversed_edges ∧ (b, k) ∈ s.traversed_edges)
          ∨ ((k, a) ∈ s.traversed_edges ∧ (k, b) ∈ s.traversed_edges)) := by
  unfold check_cycle is_edge_traversed
  simp only [Bool.or_eq_true, List.any_eq_true, List.mem_range,
    Bool.and_eq_true, decide_eq_true_eq]
  constructor
  · rintro (⟨k, hk, h1, h2⟩ | ⟨k, hk, h1, h2⟩)
    · exact ⟨(k : Int), by omega, by omega, Or.inl ⟨h1, h2⟩⟩
    · exact ⟨(k : Int), by omega, by omega, Or.inr ⟨h1, h2⟩⟩
  · rintro ⟨k, hk0, hkn, (⟨h1, h2⟩ | ⟨h1, h2⟩)⟩
    · refine Or.inl ⟨k.toNat, by omega, ?_, ?_⟩ <;>
        rw [show ((k.toNat : Nat) : Int) = k by omega] <;> assumption
    · refine Or.inr ⟨k.toNat, by omega, ?_, ?_⟩ <;>
        rw [show ((k.toNat : Nat) : Int) = k by omega] <;> assumption

/-- C5 — the pairs present after `augment_components(source, destination)`
are exactly the pairs known at the moment of the call plus, from a single
pass over those known pairs (x, y): the pair (x, destination) whenever
y = source and x ≠ destination, and the pair (source, y) whenever
x = destination and y ≠ source; pairs derivable only through pairs added
during the same call do not appear. -/
theorem augment_components_single_pass (s : PF) (a b : Int) (q : Int × Int) :
    q ∈ (augment_components s a b).traversed_edges ↔
      q ∈ s.traversed_edges
      ∨ (∃ x, (x, a) ∈ s.traversed_edges ∧ x ≠ b ∧ q = (x, b))
      ∨ (∃ y, (b, y) ∈ s.traversed_edges ∧ y ≠ a ∧ q = (a, y)) := by
  unfold augment_components
  rw [mem_foldl_augmentStep]
  constructor
  · rintro (h | ⟨⟨x, y⟩, hm, hy, hx, rfl⟩ | ⟨⟨x, y⟩, hm, hx, hy, rfl⟩)
    · exact Or.inl h
    · dsimp only at hy hx
      subst hy
      exact Or.inr (Or.inl ⟨x, hm, hx, rfl⟩)
    · dsimp only at hx hy
      subst hx
      exact Or.inr (Or.inr ⟨y, hm, hy, rfl⟩)
  · rintro (h | ⟨x, hm, hx, rfl⟩ | ⟨y, hm, hy, rfl⟩)
    · exact Or.inl h
    · exact Or.inr (Or.inl ⟨(x, a), hm, rfl, hx, rfl⟩)
    · exact Or.inr (Or.inr ⟨(b, y), hm, rfl, hy, rfl⟩)

/-- A second pass of `augment_components` with the same source and
destination adds no pair: every pair the first pass added satisfies
neither insert condition in a productive way.  This is what makes folding
over the snapshot of the set an exact model of the C++ range-for that also
visits pairs inserted ahead of its cursor. -/
theorem augment_components_twice (s : PF) (a b : Int) (q : Int × Int) :
    q ∈ (augment_components (augment_components s a b) a b).traversed_edges ↔
      q ∈ (augment_components s a b).traversed_edges := by
  constructor
  · intro h
    rw [augment_components_single_pass] at h
    rcases h with h | ⟨x, hm, hx, rfl⟩ | ⟨y, hm, hy, rfl⟩
    · exact h
    · rw [augment_components_single_pass] at hm ⊢
      rcases hm with hm | ⟨x', hm', hx', he⟩ | ⟨y', hm', hy', he⟩
      · exact Or.inr (Or.inl ⟨x, hm, hx, rfl⟩)
      · injection he with h1 h2
        subst h1
        subst h2
        exact Or.inl hm'
      · injection he with h1 h2
        exact absurd h2.symm hy'
    · rw [augment_components_single_pass] at hm ⊢
      rcases hm with hm | ⟨x', hm', hx', he⟩ | ⟨y', hm', hy', he⟩
      · exact Or.inr (Or.inr ⟨y, hm, hy, rfl⟩)
      · injection he with h1 h2
        exact absurd h1.symm hx'
      · injection he with h1 h2
        subst h2
        rw [h1] at hm'
        exact Or.inl hm'
  · intro h
    rw [augment_components_single_pass]
    exact Or.inl h

/-- Auxiliary accumulator form of C7: folding `add_edge` appends the edges
and adds exactly their weights to the running total. -/
theorem foldl_add_edge (es : List Edge) : ∀ t : SpanningTree,
    (es.foldl add_edge t).traversed_edges = t.traversed_edges ++ es
    ∧ (es.foldl add_edge t).mst_cost
        = t.mst_cost + (es.map Edge.weight).sum := by
  induction es with
  | nil => intro t; simp
  | cons e es ih =>
    intro t
    obtain ⟨h1, h2⟩ := ih (add_edge t e)
    rw [List.foldl_cons]
    refine ⟨h1.trans ?_, h2.trans ?_⟩
    · simp [add_edge]
    · simp only [add_edge, List.map_cons, List.sum_cons]
      omega

/-- C7 — each `add_edge` appends the edge and adds its weight to the
running total exactly once, and consequently, at every point of a run of
the accumulator (any sequence of `add_edge` calls starting from the
zero-initialised `SpanningTree`), the reported total cost is the sum of
the weights of exactly the edges it holds. -/
theorem spanning_tree_cost_exact :
    (∀ (t : SpanningTree) (e : Edge),
      (add_edge t e).traversed_edges = t.traversed_edges ++ [e]
      ∧ (add_edge t e).mst_cost = t.mst_cost + e.weight)
    ∧ ∀ es : List Edge,
        (es.foldl add_edge {}).traversed_edges = es
        ∧ (es.foldl add_edge {}).mst_cost = (es.map Edge.weight).sum := by
  constructor
  · intro t e
    exact ⟨rfl, rfl⟩
  · intro es
    obtain ⟨h1, h2⟩ := foldl_add_edge es {}
    refine ⟨h1.trans ?_, h2.trans ?_⟩ <;> simp

/-! ### Sorting: determinism of the edge order (C6) -/

/-- C6 — after `sort_edges` the weight index is sorted ascending by the
key (weight, insertion index); it is a permutation of the index before
sorting, and it is the ONLY sorted permutation (the lexicographic key on
whole pairs is antisymmetric), so the order — and with it the whole
selection run — does not depend on the sorting algorithm and is identical
on every run over the same loaded graph; within one weight, entries appear
in ascending insertion-index order, i.e. insertion order. -/
theorem sort_edges_deterministic (s : PF) :
    List.Sorted lexLe (sort_edges s).all_weights
    ∧ List.Perm (sort_edges s).all_weights s.all_weights
    ∧ (∀ l : List (Int × Nat), List.Perm l s.all_weights →
        List.Sorted lexLe l → l = (sort_edges s).all_weights)
    ∧ ∀ w : Int,
        List.Sorted (fun i j => i ≤ j)
          (((sort_edges s).all_weights.filter fun wi => wi.1 == w).map
            Prod.snd) := by
  have hsorted : List.Sorted lexLe (sort_edges s).all_weights :=
    List.sorted_insertionSort lexLe s.all_weights
  have hperm : List.Perm (sort_edges s).all_weights s.all_weights :=
    List.perm_insertionSort lexLe s.all_weights
  refine ⟨hsorted, hperm, ?_, ?_⟩
  · intro l hl hls
    exact List.eq_of_perm_of_sorted (hl.trans hperm.symm) hls hsorted
  · intro w
    have hf : List.Sorted lexLe
        ((sort_edges s).all_weights.filter fun wi => wi.1 == w) :=
      hsorted.filter _
    rw [List.Sorted, List.pairwise_map]
    refine List.Pairwise.imp_of_mem ?_ hf
    intro p q hp hq hpq
    have hpw : p.1 = w := by simpa using (List.mem_filter.mp hp).2
    have hqw : q.1 = w := by simpa using (List.mem_filter.mp hq).2
    rcases hpq with h | h
    · omega
    · exact h.2

/-- Witness for C6: on a concretely loaded graph, the unique sorted
permutation characterised by the theorem is the computed one. -/
theorem sort_edges_deterministic_witness :
    ([((1 : Int), (1 : Nat)), ((2 : Int), (0 : Nat))] : List (Int × Nat))
      = (sort_edges (loadEdges 4 [(2, 3, 2), (0, 1, 1)])).all_weights :=
  (sort_edges_deterministic (loadEdges 4 [(2, 3, 2), (0, 1, 1)])).2.2.1
    [((1 : Int), (1 : Nat)), ((2 : Int), (0 : Nat))] (by decide) (by decide)

/-! ### Edge insertion (C8) -/

/-- C8 (amended) — `insert_new_edge(s, d, w)` is rejected, leaving the
edge list, the weight index and the insertion counter unchanged, exactly
when the reverse-oriented edge (d, s, w) with the same weight is already
in the edge list; a non-rejected call appends exactly one edge and one
(weight, index) entry and bumps the counter; a repeated same-orientation
insertion is not rejected provided source ≠ destination (a self-loop is
its own reverse, see the counterexample); a reverse insertion with a
different weight is not rejected. -/
theorem insert_new_edge_reverse_check :
    (∀ (s : PF) (a b w : Int),
      Edge.mk b a w ∈ s.all_edges → insert_new_edge s a b w = s)
    ∧ (∀ (s : PF) (a b w : Int), Edge.mk b a w ∉ s.all_edges →
        (insert_new_edge s a b w).all_edges = s.all_edges ++ [Edge.mk a b w]
        ∧ (insert_new_edge s a b w).all_weights
            = s.all_weights ++ [(w, s.index)]
        ∧ (insert_new_edge s a b w).index = s.index + 1)
    ∧ (∀ (s : PF) (a b w : Int), a ≠ b → Edge.mk b a w ∉ s.all_edges →
        Edge.mk b a w ∉ (insert_new_edge s a b w).all_edges)
    ∧ (∀ (s : PF) (a b w w' : Int), w' ≠ w → Edge.mk a b w' ∉ s.all_edges →
        Edge.mk a b w' ∉ (insert_new_edge s a b w).all_edges) := by
  refine ⟨?_, ?_, ?_, ?_⟩
  · intro s a b w h
    simp [insert_new_edge, h]
  · intro s a b w h
    simp [insert_new_edge, h]
  · intro s a b w hab h
    simp only [insert_new_edge, if_neg h, List.mem_append, List.mem_singleton]
    rintro (hmem | he)
    · exact h hmem
    · injection he with h1 h2 h3
      exact hab h2
  · intro s a b w w' hw h
    simp only [insert_new_edge]
    split_ifs with hrej
    · exact h
    · simp only [List.mem_append, List.mem_singleton]
      rintro (hmem | he)
      · exact h hmem
      · injection he with h1 h2 h3
        exact hw h3

/-- Witness for C8: concrete instances of all four conjuncts.  With the
loaded edge (1,0,5), inserting (0,1,5) is rejected with no state change;
into the empty finder, inserting (0,1,5) appends one edge and one index
entry; after that, re-inserting (0,1,5) is still possible (0 ≠ 1) and
inserting the reverse (1,0,7) with a different weight is not rejected. -/
theorem insert_new_edge_reverse_check_witness :
    insert_new_edge (loadEdges 2 [(1, 0, 5)]) 0 1 5 = loadEdges 2 [(1, 0, 5)]
    ∧ (insert_new_edge { num_of_nodes := 2 } 0 1 5).all_edges
        = [] ++ [Edge.mk 0 1 5]
    ∧ Edge.mk 1 0 5 ∉ (insert_new_edge { num_of_nodes := 2 } 0 1 5).all_edges
    ∧ Edge.mk 0 1 7 ∉ (insert_new_edge { num_of_nodes := 2 } 0 1 5).all_edges := by
  refine ⟨?_, ?_, ?_, ?_⟩
  · exact insert_new_edge_reverse_check.1 (loadEdges 2 [(1, 0, 5)]) 0 1 5
      (by decide)
  · exact (insert_new_edge_reverse_check.2.1 { num_of_nodes := 2 } 0 1 5
      (by decide)).1
  · exact insert_new_edge_reverse_check.2.2.1 { num_of_nodes := 2 } 0 1 5
      (by decide) (by decide)
  · exact insert_new_edge_reverse_check.2.2.2 { num_of_nodes := 2 } 0 1 5 7
      (by decide) (by decide)

/-- Counterexample for C8 as stated: a self-loop edge is its own
reverse-oriented edge, so inserting (0,0,1) a second time with the same
orientation IS rejected — the state is unchanged and the edge list still
holds a single copy. -/
theorem insert_same_orientation_self_loop_rejected :
    insert_new_edge (insert_new_edge { num_of_nodes := 1 } 0 0 1) 0 0 1
      = insert_new_edge { num_of_nodes := 1 } 0 0 1
    ∧ (insert_new_edge (insert_new_edge { num_of_nodes := 1 } 0 0 1) 0 0 1).all_edges
      = [Edge.mk 0 0 1] := by
  constructor
  · decide
  · decide

/-! ### Concrete runs (C2, C3) and the empty-index fall-off (C1) -/

/-- C2 — on the graph with 4 nodes and the edges (0,1,1), (1,2,2),
(2,3,3), (0,3,4) inserted in that order, the driver loop accepts exactly
(0,1,1), (1,2,2), (2,3,3) in that order, reaches the terminal signal
(third component `true`) and the accumulator totals cost 6. -/
theorem run_example_connected :
    (runMST 10 (sort_edges (loadEdges 4 [(0, 1, 1), (1, 2, 2), (2, 3, 3), (0, 3, 4)])) {}).1.traversed_edges
      = [Edge.mk 0 1 1, Edge.mk 1 2 2, Edge.mk 2 3 3]
    ∧ (runMST 10 (sort_edges (loadEdges 4 [(0, 1, 1), (1, 2, 2), (2, 3, 3), (0, 3, 4)])) {}).1.mst_cost = 6
    ∧ (runMST 10 (sort_edges (loadEdges 4 [(0, 1, 1), (1, 2, 2), (2, 3, 3), (0, 3, 4)])) {}).2.2 = true := by
  refine ⟨by decide, by decide, by decide⟩

/-- C3, run on the failing input — on the disconnected graph with 4 nodes
whose edges join only 0-1 and 2-3, the run accepts exactly 2 edges, and
the third `traverse` call, instead of reporting the terminal signal,
exhausts the weight index and reaches the end of the non-void function:
the undefined-behaviour result, so the driver stops with `false`. -/
theorem run_example_disconnected_undefined :
    (runMST 10 (sort_edges (loadEdges 4 [(0, 1, 1), (2, 3, 2)])) {}).1.traversed_edges
      = [Edge.mk 0 1 1, Edge.mk 2 3 2]
    ∧ (runMST 10 (sort_edges (loadEdges 4 [(0, 1, 1), (2, 3, 2)])) {}).2.2 = false
    ∧ (traverse (runMST 10 (sort_edges (loadEdges 4 [(0, 1, 1), (2, 3, 2)])) {}).2.1).1
        = TravResult.undef := by
  refine ⟨by decide, by decide, by decide⟩

/-! ### Anatomy of one `traverse` call -/

theorem acceptEdge_all_weights (s : PF) (a b : Int) :
    (acceptEdge s a b).all_weights = s.all_weights := by
  unfold acceptEdge
  rw [augment_components_all_weights]

theorem acceptEdge_all_edges (s : PF) (a b : Int) :
    (acceptEdge s a b).all_edges = s.all_edges := by
  unfold acceptEdge
  rw [augment_components_all_edges]

theorem acceptEdge_num_of_nodes (s : PF) (a b : Int) :
    (acceptEdge s a b).num_of_nodes = s.num_of_nodes := by
  unfold acceptEdge
  rw [augment_components_num_of_nodes]

theorem acceptEdge_count (s : PF) (a b : Int) :
    (acceptEdge s a b).num_of_traversed_edges
      = s.num_of_traversed_edges + 1 := by
  unfold acceptEdge
  rw [augment_components_count]

theorem mem_traversed_acceptEdge (s : PF) (a b : Int) (q : Int × Int)
    (h : q ∈ s.traversed_edges) : q ∈ (acceptEdge s a b).traversed_edges := by
  unfold acceptEdge
  rw [augment_components_single_pass]
  exact Or.inl (mem_sinsert.mpr (Or.inr h))

theorem accepted_pair_mem_acceptEdge (s : PF) (a b : Int) :
    (a, b) ∈ (acceptEdge s a b).traversed_edges := by
  unfold acceptEdge
  rw [augment_components_single_pass]
  exact Or.inl (mem_sinsert.mpr (Or.inl rfl))

/-- Exhaustive description of one call of the `traverse` loop on an entry
list `l`: it falls off the end leaving the state alone, or terminates
because the counter equals nodeCount - 1 leaving the state alone, or
rejects some entry of `l` whose edge is untraversed but cycle-flagged and
erases exactly that entry, or accepts some entry of `l` whose edge is
untraversed and not cycle-flagged. -/
theorem traverseGo_spec (l : List (Int × Nat)) (s : PF) (r : TravResult)
    (s' : PF) (h : traverseGo s l = (r, s')) :
    (r = TravResult.undef ∧ s' = s)
    ∨ (r = TravResult.complete ∧ s' = s
        ∧ s.num_of_traversed_edges = s.num_of_nodes - 1)
    ∨ (∃ item ∈ l, r = TravResult.rejected
        ∧ s' = { s with all_weights := s.all_weights.erase item }
        ∧ s.num_of_traversed_edges ≠ s.num_of_nodes - 1
        ∧ is_edge_traversed s (edgeAt s item).source (edgeAt s item).destination = false
        ∧ check_cycle s (edgeAt s item).source (edgeAt s item).destination = true)
    ∨ (∃ item ∈ l, r = TravResult.accepted (edgeAt s item)
        ∧ s' = acceptEdge s (edgeAt s item).source (edgeAt s item).destination
        ∧ s.num_of_traversed_edges ≠ s.num_of_nodes - 1
        ∧ is_edge_traversed s (edgeAt s item).source (edgeAt s item).destination = false
        ∧ check_cycle s (edgeAt s item).source (edgeAt s item).destination = false) := by
  induction l with
  | nil =>
    simp only [traverseGo] at h
    injection h with h1 h2
    subst h1
    subst h2
    exact Or.inl ⟨rfl, rfl⟩
  | cons item rest ih =>
    simp only [traverseGo] at h
    by_cases hterm : s.num_of_traversed_edges = s.num_of_nodes - 1
    · rw [if_pos hterm] at h
      injection h with h1 h2
      subst h1
      subst h2
      exact Or.inr (Or.inl ⟨rfl, rfl, hterm⟩)
    · rw [if_neg hterm] at h
      by_cases htrav :
          is_edge_traversed s (edgeAt s item).source (edgeAt s item).destination = true
      · rw [if_pos htrav] at h
        rcases ih h with h0 | h0 | ⟨it, hit, h0⟩ | ⟨it, hit, h0⟩
        · exact Or.inl h0
        · exact Or.inr (Or.inl h0)
        · exact Or.inr (Or.inr (Or.inl ⟨it, List.mem_cons_of_mem item hit, h0⟩))
        · exact Or.inr (Or.inr (Or.inr ⟨it, List.mem_cons_of_mem item hit, h0⟩))
      · rw [if_neg htrav] at h
        rw [Bool.not_eq_true] at htrav
        by_cases hcyc :
            check_cycle s (edgeAt s item).source (edgeAt s item).destination = true
        · rw [if_pos hcyc] at h
          injection h with h1 h2
          subst h1
          subst h2
          exact Or.inr (Or.inr (Or.inl
            ⟨item, List.mem_cons_self item rest, rfl, rfl, hterm, htrav, hcyc⟩))
        · rw [if_neg hcyc] at h
          injection h with h1 h2
          subst h1
          subst h2
          rw [Bool.not_eq_true] at hcyc
          exact Or.inr (Or.inr (Or.inr
            ⟨item, List.mem_cons_self item rest, rfl, rfl, hterm, htrav, hcyc⟩))

/-- Once the counter equals nodeCount - 1, the loop terminates at its very
first entry and changes nothing — provided there is a first entry. -/
theorem traverseGo_complete_of_count (s : PF) (l : List (Int × Nat))
    (hne : l ≠ []) (hc : s.num_of_traversed_edges = s.num_of_nodes - 1) :
    traverseGo s l = (TravResult.complete, s) := by
  cases l with
  | nil => exact absurd rfl hne
  | cons a l =>
    simp only [traverseGo]
    rw [if_pos hc]

theorem traverse_weights_sublist (s : PF) (r : TravResult) (s' : PF)
    (h : traverse s = (r, s')) : s'.all_weights.Sublist s.all_weights := by
  rcases traverseGo_spec s.all_weights s r s' h with
    ⟨_, rfl⟩ | ⟨_, rfl, _⟩ | ⟨item, _, _, rfl, _⟩ | ⟨item, _, _, rfl, _⟩
  · exact List.Sublist.refl _
  · exact List.Sublist.refl _
  · exact List.erase_sublist item s.all_weights
  · rw [acceptEdge_all_weights]

theorem traverse_all_edges (s : PF) (r : TravResult) (s' : PF)
    (h : traverse s = (r, s')) : s'.all_edges = s.all_edges := by
  rcases traverseGo_spec s.all_weights s r s' h with
    ⟨_, rfl⟩ | ⟨_, rfl, _⟩ | ⟨item, _, _, rfl, _⟩ | ⟨item, _, _, rfl, _⟩
  · rfl
  · rfl
  · rfl
  · exact acceptEdge_all_edges ..

theorem traverse_num_of_nodes (s : PF) (r : TravResult) (s' : PF)
    (h : traverse s = (r, s')) : s'.num_of_nodes = s.num_of_nodes := by
  rcases traverseGo_spec s.all_weights s r s' h with
    ⟨_, rfl⟩ | ⟨_, rfl, _⟩ | ⟨item, _, _, rfl, _⟩ | ⟨item, _, _, rfl, _⟩
  · rfl
  · rfl
  · rfl
  · exact acceptEdge_num_of_nodes ..

/-! ### Counting arguments for the run invariant -/

/-- Whether the edge a weight-index entry points at is recorded as
traversed — the condition under which `traverse` skips the entry. -/
def entryTraversed (s : PF) (wi : Int × Nat) : Bool :=
  is_edge_traversed s (edgeAt s wi).source (edgeAt s wi).destination

theorem countP_erase_of_neg {α : Type} [BEq α] [LawfulBEq α] (p : α → Bool)
    (l : List α) (a : α) (h : p a = false) :
    (l.erase a).countP p = l.countP p := by
  induction l with
  | nil => rfl
  | cons x xs ih =>
    rcases Bool.eq_false_or_eq_true (x == a) with hxa | hxa
    · have hx : x = a := eq_of_beq hxa
      subst hx
      rw [List.erase_cons_head, List.countP_cons, h]
      simp
    · rw [List.erase_cons_tail (by simp [hxa]), List.countP_cons,
        List.countP_cons, ih]

theorem countP_succ_le_of_flip {α : Type} (p q : α → Bool) (l : List α)
    (hmono : ∀ x ∈ l, p x = true → q x = true) (a : α) (ha : a ∈ l)
    (hpa : p a = false) (hqa : q a = true) :
    l.countP p + 1 ≤ l.countP q := by
  obtain ⟨l1, l2, rfl⟩ := List.append_of_mem ha
  rw [List.countP_append, List.countP_append, List.countP_cons,
    List.countP_cons, hpa, hqa]
  have h1 : l1.countP p ≤ l1.countP q :=
    List.countP_mono_left fun x hx => hmono x (by simp [hx])
  have h2 : l2.countP p ≤ l2.countP q :=
    List.countP_mono_left fun x hx => hmono x (by simp [hx])
  simp only [Bool.false_eq_true, if_false, if_true]
  omega

/-! ### The run invariant -/

/-- Invariant of every reachable `PathFinder` state: the accepted-edge
counter is non-negative and bounded by the number of weight-index entries
whose edge is recorded as traversed (accepted entries are never erased),
every weight-index entry points inside the edge list at an edge of the
recorded weight, and the stored indices are pairwise distinct. -/
def goodState (s : PF) : Prop :=
  0 ≤ s.num_of_traversed_edges
  ∧ s.num_of_traversed_edges ≤ (s.all_weights.countP (entryTraversed s) : Int)
  ∧ (∀ wi ∈ s.all_weights,
      ∃ e, s.all_edges[wi.2]? = some e ∧ e.weight = wi.1)
  ∧ (s.all_weights.map Prod.snd).Nodup

theorem loadEdges_fields (n : Int) (ts : List (Int × Int × Int)) :
    (loadEdges n ts).traversed_edges = []
    ∧ (loadEdges n ts).num_of_traversed_edges = 0
    ∧ (loadEdges n ts).num_of_nodes = n
    ∧ (loadEdges n ts).index = (loadEdges n ts).all_edges.length
    ∧ (loadEdges n ts).all_weights.map Prod.snd
        = List.range (loadEdges n ts).all_edges.length := by
  unfold loadEdges
  generalize hinit : ({ num_of_nodes := n } : PF) = s0
  have h0 : s0.traversed_edges = [] ∧ s0.num_of_traversed_edges = 0
      ∧ s0.num_of_nodes = n ∧ s0.index = s0.all_edges.length
      ∧ s0.all_weights.map Prod.snd = List.range s0.all_edges.length := by
    rw [← hinit]
    exact ⟨rfl, rfl, rfl, rfl, rfl⟩
  clear hinit
  induction ts generalizing s0 with
  | nil => exact h0
  | cons t ts ih =>
    rw [List.foldl_cons]
    apply ih
    obtain ⟨h1, h2, h3, h4, h5⟩ := h0
    unfold insert_new_edge
    split_ifs with hrej
    · exact ⟨h1, h2, h3, h4, h5⟩
    · refine ⟨h1, h2, h3, ?_, ?_⟩
      · simp [h4]
      · simp only [List.map_append, List.length_append, List.map_cons,
          List.map_nil, h5, List.length_cons, List.length_nil]
        rw [h4, List.range_succ]

theorem weightsOK_loadEdges (n : Int) (ts : List (Int × Int × Int)) :
    ∀ wi ∈ (loadEdges n ts).all_weights,
      ∃ e, (loadEdges n ts).all_edges[wi.2]? = some e ∧ e.weight = wi.1 := by
  unfold loadEdges
  generalize hinit : ({ num_of_nodes := n } : PF) = s0
  have h0 : (s0.index = s0.all_edges.length)
      ∧ ∀ wi ∈ s0.all_weights,
          ∃ e, s0.all_edges[wi.2]? = some e ∧ e.weight = wi.1 := by
    rw [← hinit]
    exact ⟨rfl, by intro wi hwi; cases hwi⟩
  clear hinit
  induction ts generalizing s0 with
  | nil => exact h0.2
  | cons t ts ih =>
    rw [List.foldl_cons]
    apply ih
    obtain ⟨h4, hOK⟩ := h0
    unfold insert_new_edge
    split_ifs with hrej
    · exact ⟨h4, hOK⟩
    · constructor
      · simp [h4]
      · intro wi hwi
        rcases List.mem_append.mp hwi with hold | hnew
        · obtain ⟨e, he, hw⟩ := hOK wi hold
          refine ⟨e, ?_, hw⟩
          rw [List.getElem?_append_left, he]
          exact List.getElem?_eq_some.mp he |>.1
        · rw [List.mem_singleton] at hnew
          subst hnew
          refine ⟨Edge.mk t.1 t.2.1 t.2.2, ?_, rfl⟩
          rw [h4]
          exact List.getElem?_concat_length ..

theorem goodState_loadEdges (n : Int) (ts : List (Int × Int × Int)) :
    goodState (loadEdges n ts) := by
  obtain ⟨h1, h2, h3, h4, h5⟩ := loadEdges_fields n ts
  refine ⟨by rw [h2], by rw [h2]; exact Int.ofNat_nonneg _, weightsOK_loadEdges n ts, ?_⟩
  rw [h5]
  exact List.nodup_range _

theorem goodState_sort (s : PF) (h : goodState s) :
    goodState (sort_edges s) := by
  obtain ⟨h1, h2, h3, h4⟩ := h
  have hperm : List.Perm (sort_edges s).all_weights s.all_weights :=
    List.perm_insertionSort lexLe s.all_weights
  refine ⟨h1, ?_, ?_, ?_⟩
  · have : (sort_edges s).all_weights.countP (entryTraversed (sort_edges s))
        = s.all_weights.countP (entryTraversed s) := hperm.countP_eq _
    rw [show (sort_edges s).num_of_traversed_edges = s.num_of_traversed_edges
        from rfl, this]
    exact h2
  · intro wi hwi
    exact h3 wi (hperm.mem_iff.mp hwi)
  · exact ((hperm.map Prod.snd).nodup_iff).mpr h4

theorem goodState_step (s : PF) (r : TravResult) (s' : PF)
    (h : traverse s = (r, s')) (hg : goodState s) : goodState s' := by
  obtain ⟨h1, h2, h3, h4⟩ := hg
  rcases traverseGo_spec s.all_weights s r s' h with
    ⟨_, rfl⟩ | ⟨_, rfl, _⟩ | ⟨item, hmem, _, rfl, _, htrav, _⟩
      | ⟨item, hmem, _, rfl, _, htrav, _⟩
  · exact ⟨h1, h2, h3, h4⟩
  · exact ⟨h1, h2, h3, h4⟩
  · -- cycle rejection: the erased entry was not a traversed one
    have hpe : entryTraversed s item = false := htrav
    refine ⟨h1, ?_, ?_, ?_⟩
    · have hsame : entryTraversed { s with all_weights := s.all_weights.erase item }
          = entryTraversed s := rfl
      rw [show ({ s with all_weights := s.all_weights.erase item } : PF).num_of_traversed_edges
          = s.num_of_traversed_edges from rfl, hsame,
        show ({ s with all_weights := s.all_weights.erase item } : PF).all_weights
          = s.all_weights.erase item from rfl,
        countP_erase_of_neg _ _ _ hpe]
      exact h2
    · intro wi hwi
      exact h3 wi (List.mem_of_mem_erase hwi)
    · exact List.Nodup.sublist ((List.erase_sublist item s.all_weights).map Prod.snd) h4
  · -- acceptance: the counter and the traversed-entry count both grow
    set a := (edgeAt s item).source
    set b := (edgeAt s item).destination
    have hedges : (acceptEdge s a b).all_edges = s.all_edges :=
      acceptEdge_all_edges ..
    have hweights : (acceptEdge s a b).all_weights = s.all_weights :=
      acceptEdge_all_weights ..
    have hcount : (acceptEdge s a b).num_of_traversed_edges
        = s.num_of_traversed_edges + 1 := acceptEdge_count ..
    have hmono : ∀ wi ∈ s.all_weights,
        entryTraversed s wi = true → entryTraversed (acceptEdge s a b) wi = true := by
      intro wi _ hwi
      unfold entryTraversed is_edge_traversed at hwi ⊢
      rw [show edgeAt (acceptEdge s a b) wi = edgeAt s wi by unfold edgeAt; rw [hedges]]
      rw [decide_eq_true_eq] at hwi ⊢
      exact mem_traversed_acceptEdge s a b _ hwi
    have hflip : entryTraversed (acceptEdge s a b) item = true := by
      unfold entryTraversed is_edge_traversed
      rw [show edgeAt (acceptEdge s a b) item = edgeAt s item by unfold edgeAt; rw [hedges]]
      rw [decide_eq_true_eq]
      exact accepted_pair_mem_acceptEdge s a b
    have hstep : s.all_weights.countP (entryTraversed s) + 1
        ≤ s.all_weights.countP (entryTraversed (acceptEdge s a b)) :=
      countP_succ_le_of_flip _ _ _ hmono item hmem htrav hflip
    refine ⟨by omega, ?_, ?_, ?_⟩
    · rw [hcount, hweights]
      omega
    · intro wi hwi
      rw [hweights] at hwi
      obtain ⟨e, he, hw⟩ := h3 wi hwi
      exact ⟨e, by rw [hedges]; exact he, hw⟩
    · rw [hweights]
      exact h4

/-- Every reachable state satisfies the run invariant. -/
theorem goodState_reach (s : PF) (h : Reach s) : goodState s := by
  induction h with
  | loaded n ts => exact goodState_loadEdges n ts
  | sorted s _ ih => exact goodState_sort s ih
  | stepped s r s' _ hstep ih => exact goodState_step s r s' hstep ih

theorem steps_weights_sublist (s s' : PF) (h : Steps s s') :
    s'.all_weights.Sublist s.all_weights := by
  induction h with
  | refl => exact List.Sublist.refl _
  | tail s1 s2 r hsteps heq ih =>
    exact (traverse_weights_sublist s1 r s2 heq).trans ih

/-- C1 (amended) — whenever `traverse` reports the terminal signal it
leaves the state untouched and the accepted-edge counter equals
nodeCount - 1; and in every reachable state with nodeCount ≥ 2, as soon
as the counter equals nodeCount - 1 the very next `traverse` call reports
the terminal signal with no state change — hence no further edge is ever
accepted.  (For nodeCount ≤ 1 with an empty weight index the signal is
never reported: see the counterexample.) -/
theorem traverse_terminal_behavior :
    (∀ (s s' : PF) (r : TravResult), traverse s = (r, s') →
      r = TravResult.complete →
      s' = s ∧ s.num_of_traversed_edges = s.num_of_nodes - 1)
    ∧ ∀ s : PF, Reach s → 2 ≤ s.num_of_nodes →
      s.num_of_traversed_edges = s.num_of_nodes - 1 →
      traverse s = (TravResult.complete, s) := by
  constructor
  · intro s s' r h hr
    subst hr
    rcases traverseGo_spec s.all_weights s _ s' h with
      ⟨hc, _⟩ | ⟨_, rfl, hcount⟩ | ⟨item, _, hc, _⟩ | ⟨item, _, hc, _⟩
    · exact TravResult.noConfusion hc
    · exact ⟨rfl, hcount⟩
    · exact TravResult.noConfusion hc
    · exact TravResult.noConfusion hc
  · intro s hreach h2 hcount
    obtain ⟨hge, hle, _, _⟩ := goodState_reach s hreach
    have hcp : 1 ≤ s.all_weights.countP (entryTraversed s) := by omega
    have hne : s.all_weights ≠ [] := by
      intro hnil
      rw [hnil] at hcp
      simp at hcp
    exact traverseGo_complete_of_count s s.all_weights hne hcount

/-- The state of the four-node connected example after its three
accepting `traverse` calls: the counter stands at nodeCount - 1 = 3. -/
def completeState : PF :=
  (traverse (traverse (traverse (sort_edges (loadEdges 4
    [(0, 1, 1), (1, 2, 2), (2, 3, 3), (0, 3, 4)]))).2).2).2

theorem traverse_terminal_behavior_witness :
    traverse completeState = (TravResult.complete, completeState)
    ∧ completeState.num_of_traversed_edges = completeState.num_of_nodes - 1 := by
  constructor
  · exact traverse_terminal_behavior.2 completeState
      (Reach.stepped _ _ _ (Reach.stepped _ _ _ (Reach.stepped _ _ _
          (Reach.sorted _ (Reach.loaded 4 _)) (Prod.eta _).symm)
        (Prod.eta _).symm) (Prod.eta _).symm)
      (by decide) (by decide)
  · exact (traverse_terminal_behavior.1 completeState
      (traverse completeState).2 (traverse completeState).1
      (Prod.eta _).symm (by decide)).2

/-- C9 — a `traverse` call that reports the cycle-rejection signal leaves
the connectivity pairs, the accepted-edge counter, the edge list, the node
count, the touched nodes and the insertion counter unchanged, makes the
driver leave the accumulator untouched and continue, and removes exactly
one entry from the weight index: an entry whose edge is untraversed and
cycle-flagged; when the stored indices are distinct (true in every run,
see C10) that entry is gone for good — no later call ever sees it. -/
theorem traverse_cycle_rejection (s s' : PF)
    (h : traverse s = (TravResult.rejected, s')) :
    s'.traversed_edges = s.traversed_edges
    ∧ s'.num_of_traversed_edges = s.num_of_traversed_edges
    ∧ s'.all_edges = s.all_edges
    ∧ s'.num_of_nodes = s.num_of_nodes
    ∧ s'.traversed_nodes = s.traversed_nodes
    ∧ s'.index = s.index
    ∧ (∀ (t : SpanningTree) (fuel : Nat),
        runMST (fuel + 1) s t = runMST fuel s' t)
    ∧ ∃ item ∈ s.all_weights,
        is_edge_traversed s (edgeAt s item).source (edgeAt s item).destination = false
        ∧ check_cycle s (edgeAt s item).source (edgeAt s item).destination = true
        ∧ s'.all_weights = s.all_weights.erase item
        ∧ ((s.all_weights.map Prod.snd).Nodup →
            ∀ s'' : PF, Steps s' s'' → item ∉ s''.all_weights) := by
  rcases traverseGo_spec s.all_weights s _ s' h with
    ⟨hc, _⟩ | ⟨hc, _, _⟩ | ⟨item, hmem, _, rfl, _, htrav, hcyc⟩
      | ⟨item, _, hc, _⟩
  · exact TravResult.noConfusion hc
  · exact TravResult.noConfusion hc
  · refine ⟨rfl, rfl, rfl, rfl, rfl, rfl, ?_, item, hmem, htrav, hcyc, rfl, ?_⟩
    · intro t fuel
      simp only [runMST, h]
    · intro hnodup s'' hsteps hmem''
      have hnd : s.all_weights.Nodup := List.Nodup.of_map Prod.snd hnodup
      have hni : item ∉ s.all_weights.erase item := hnd.not_mem_erase
      exact hni ((steps_weights_sublist _ _ hsteps).subset hmem'')
  · exact TravResult.noConfusion hc

/-- The state of the four-node example with edges (0,1,1), (0,2,2),
(1,2,3), (3,1,4) after its two accepting `traverse` calls: the next call
reaches the edge (1,2) whose endpoints share the recorded neighbour 0, so
it is rejected as a cycle. -/
def rejectState : PF :=
  (traverse (traverse (sort_edges (loadEdges 4
    [(0, 1, 1), (0, 2, 2), (1, 2, 3), (3, 1, 4)]))).2).2

theorem traverse_cycle_rejection_witness :
    traverse rejectState = (TravResult.rejected, (traverse rejectState).2)
    ∧ (traverse rejectState).2.traversed_edges = rejectState.traversed_edges
    ∧ (traverse rejectState).2.num_of_traversed_edges
        = rejectState.num_of_traversed_edges := by
  refine ⟨by decide, ?_, ?_⟩
  · exact (traverse_cycle_rejection rejectState (traverse rejectState).2
      (by decide)).1
  · exact (traverse_cycle_rejection rejectState (traverse rejectState).2
      (by decide)).2.1

/-- C10 — after any sequence of `insert_new_edge` calls the weight index
and the edge list have the same length and the stored indices are exactly
the positions 0, 1, ... of the edge list (hence pairwise distinct); and in
every reachable state — also after sorting and any number of `traverse`
calls — every weight-index entry points inside the edge list, at the edge
whose weight it records, so the `all_edges[item.second]` lookups of
`traverse` and `print` are always in bounds. -/
theorem weight_index_in_bounds :
    (∀ (n : Int) (ts : List (Int × Int × Int)),
      (loadEdges n ts).all_weights.length = (loadEdges n ts).all_edges.length
      ∧ (loadEdges n ts).all_weights.map Prod.snd
          = List.range (loadEdges n ts).all_edges.length
      ∧ ((loadEdges n ts).all_weights.map Prod.snd).Nodup)
    ∧ ∀ s : PF, Reach s → ∀ wi ∈ s.all_weights,
        wi.2 < s.all_edges.length ∧ (edgeAt s wi).weight = wi.1 := by
  constructor
  · intro n ts
    obtain ⟨_, _, _, _, h5⟩ := loadEdges_fields n ts
    refine ⟨?_, h5, by rw [h5]; exact List.nodup_range _⟩
    have := congrArg List.length h5
    simpa using this
  · intro s hreach wi hwi
    obtain ⟨_, _, h3, _⟩ := goodState_reach s hreach
    obtain ⟨e, he, hwt⟩ := h3 wi hwi
    have hlt : wi.2 < s.all_edges.length := (List.getElem?_eq_some.mp he).1
    refine ⟨hlt, ?_⟩
    unfold edgeAt
    rw [List.getD_eq_getElem?_getD, he, Option.getD_some]
    exact hwt

theorem weight_index_in_bounds_witness :
    ((1 : Int), (0 : Nat)).2
        < (sort_edges (loadEdges 4 [(0, 1, 1), (2, 3, 2)])).all_edges.length
    ∧ (edgeAt (sort_edges (loadEdges 4 [(0, 1, 1), (2, 3, 2)]))
        ((1 : Int), (0 : Nat))).weight = ((1 : Int), (0 : Nat)).1 :=
  weight_index_in_bounds.2 (sort_edges (loadEdges 4 [(0, 1, 1), (2, 3, 2)]))
    (Reach.sorted _ (Reach.loaded 4 _)) ((1 : Int), (0 : Nat)) (by decide)

/-- Counterexample for C1 as stated: the one-node graph with no edges is
connected and its accepted-edge counter already equals nodeCount - 1 = 0,
yet `traverse` never reports the terminal signal — with an empty weight
index the loop body never runs and control falls off the end of the
non-void function (undefined behaviour), not a "complete" report. -/
theorem traverse_empty_index_no_terminal :
    (sort_edges (loadEdges 1 [])).num_of_traversed_edges
      = (sort_edges (loadEdges 1 [])).num_of_nodes - 1
    ∧ (traverse (sort_edges (loadEdges 1 []))).1 = TravResult.undef
    ∧ (traverse (sort_edges (loadEdges 1 []))).1 ≠ TravResult.complete := by
  refine ⟨by decide, by decide, by decide⟩

end MST
